import Mathlib

/-!
Verification of the blocklist engine of `src/blocklist.rs` (crab-hole).

The file embeds, as pure Lean functions, the cache-file-name derivation,
the per-source content resolver (network fetch with on-disk cache
fallback), the domain trie (modelled from the specification, since
`src/trie.rs` is not among the given files) and the coordinator's
publication sequence (insert - shrink - store count - swap), and proves
the claimed properties about them.
-/

namespace CrabHole

/-! ## Cache file naming (blocklist.rs lines 62-70)

Strings are modelled as lists of characters: `url.path()` is the raw
path component, `url.query()` the optional raw query string. -/

/-- Embeds `url.path().to_owned().replace('/', "-")` (line 62): every
slash becomes a dash, all other characters are kept. -/
def replaceSlash : List Char → List Char
  | [] => []
  | c :: cs => (if c = '/' then '-' else c) :: replaceSlash cs

/-- Embeds `if !path.is_empty() { path.remove(0); }` (lines 63-65): the
first character is removed whenever the string is non-empty. -/
def removeFirst : List Char → List Char
  | [] => []
  | _ :: cs => cs

/-- Cache file name of a remote source (lines 62-69): replace slashes,
drop the first character when non-empty, then append `--` and the raw
query string when a query is present. -/
def cacheName (path : List Char) (query : Option (List Char)) : List Char :=
  let p := removeFirst (replaceSlash path)
  match query with
  | some q => p ++ ('-' :: '-' :: q)
  | none => p

/-- Embeds `PathBuf::from(&*LIST_DIR).join(path)` (line 70): the cache
file is placed directly under the configured cache directory. -/
def cachePath (listDir : List Char) (path : List Char) (query : Option (List Char)) :
    List Char :=
  listDir ++ '/' :: cacheName path query

/-- The naming rule exactly as the claim words it (for the refinement
comparison): a single leading dash is removed only if the replaced path
starts with one. -/
def cacheNameClaimed (path : List Char) (query : Option (List Char)) : List Char :=
  let p := replaceSlash path
  let p := if p.head? = some '-' then p.tail else p
  match query with
  | some q => p ++ ('-' :: '-' :: q)
  | none => p

/-! ## The per-source resolver (blocklist.rs lines 49-121)

One remote source during one `update` call is abstracted by the state of
the world it interacts with: the cache file's current content (`none`
when the file does not exist), the outcome the network would give
(`none` for a transport error or non-success status), and whether a
write to, or a read of, the cache file would succeed. -/

/-- World state seen by one remote source: cache file content, network
outcome, and whether cache writes and reads succeed. -/
structure RemoteEnv where
  cache : Option (List Char)
  fetch : Option (List Char)
  writeOk : Bool
  readOk : Bool
deriving DecidableEq

/-- Outcome of resolving one remote source: the raw list content handed
to the parser (`none` means the source is skipped), the cache file
content afterwards, and whether a network request was made. -/
structure ResolveOut where
  content : Option (List Char)
  cache : Option (List Char)
  fetched : Bool
deriving DecidableEq

/-- Embeds the remote branch of `update` (lines 62-120). A fetch is
attempted iff the cache file is absent or `restore_from_cache` is false
(line 71); on fetch success the body is persisted (write failure only
logged, lines 82-87) and returned; on fetch failure or skipped fetch the
cache file is read back when it exists (lines 101-120). -/
def resolveRemote (env : RemoteEnv) (restore : Bool) : ResolveOut :=
  if env.cache.isNone || !restore then
    match env.fetch with
    | some body =>
      ⟨some body, if env.writeOk then some body else env.cache, true⟩
    | none =>
      match env.cache with
      | some c => ⟨if env.readOk then some c else none, some c, true⟩
      | none => ⟨none, none, true⟩
  else
    match env.cache with
    | some c => ⟨if env.readOk then some c else none, some c, false⟩
    | none => ⟨none, none, false⟩

/-! ## The domain trie

Modelled from the spec: the `Trie` of `src/trie.rs` is used by
blocklist.rs (`trie.insert`, `trie.contains`, `trie.len`,
`trie.shrink_to_fit`) but its code is not among the repository files
given; §4.1 of the spec describes it. A node owns a terminal flag and a
mapping from label to child (labels unique among siblings, no ordering
significance), here an association list. A domain is handled as its list
of labels read most-significant-first (for `ads.example.com` the list
`["com", "example", "ads"]`). -/

/-- Modelled from the spec: a trie node, a terminal flag plus a mapping
from label to child node. -/
inductive Trie where
  | mk (terminal : Bool) (children : List (String × Trie))

/-- Terminal flag of a node. -/
def Trie.terminal : Trie → Bool
  | .mk t _ => t

/-- Children of a node. -/
def Trie.children : Trie → List (String × Trie)
  | .mk _ cs => cs

/-- The empty trie: a non-terminal root with no children. -/
def Trie.empty : Trie := .mk false []

/-- Child of a node under a given label, if any. -/
def findChild (l : String) : List (String × Trie) → Option Trie
  | [] => none
  | (k, c) :: rest => if k = l then some c else findChild l rest

/-- Replaces (or adds) the child under a given label. -/
def setChild (l : String) (t : Trie) : List (String × Trie) → List (String × Trie)
  | [] => [(l, t)]
  | (k, c) :: rest => if k = l then (l, t) :: rest else (k, c) :: setChild l t rest

/-- Modelled from the spec: `insert` walks the labels most significant
first, creating missing nodes, and marks the final node terminal. -/
def Trie.insertLabels : Trie → List String → Trie
  | .mk _ cs, [] => .mk true cs
  | .mk term cs, l :: ls =>
    let child := (findChild l cs).getD Trie.empty
    .mk term (setChild l (child.insertLabels ls) cs)

/-- Exact membership: the walk consumes every label and ends on a
terminal node. -/
def Trie.memB : Trie → List String → Bool
  | .mk term _, [] => term
  | .mk _ cs, l :: ls =>
    match findChild l cs with
    | some c => c.memB ls
    | none => false

/-- Modelled from the spec: `contains` walks the labels most significant
first; it matches exactly when all labels are consumed on a terminal
node, or, when `includeSubdomains` is set, as soon as a terminal node is
reached with labels still remaining. -/
def Trie.containsLabels : Trie → List String → Bool → Bool
  | .mk term _, [], _ => term
  | .mk term cs, l :: ls, incl =>
    if incl && term then true
    else
      match findChild l cs with
      | some c => c.containsLabels ls incl
      | none => false

/-- Modelled from the spec: `shrink_to_fit` is a compaction hint and must
not change observable query results; observably it is the identity. -/
def Trie.shrinkToFit (t : Trie) : Trie := t

/-- Number of terminal nodes of a trie (`trie.len()`). -/
def Trie.len : Trie → Nat
  | .mk term cs => (if term then 1 else 0) + sumLen cs
where
  /-- Sum of the lengths of the child tries of an association list. -/
  sumLen : List (String × Trie) → Nat
  | [] => 0
  | (_, c) :: rest => c.len + sumLen rest

/-- Labels of a domain string, most significant first. -/
def domainLabels (s : String) : List String :=
  (s.splitOn ".").reverse

/-- Insertion of a domain given as a dot-separated string. -/
def Trie.insert (t : Trie) (domain : String) : Trie :=
  t.insertLabels (domainLabels domain)

/-- Query with a domain given as a dot-separated string. -/
def Trie.contains (t : Trie) (domain : String) (includeSubdomains : Bool) : Bool :=
  t.containsLabels (domainLabels domain) includeSubdomains

/-- The trie obtained by inserting a list of domains (as label lists)
into the empty trie, in order. -/
def buildTrie (ds : List (List String)) : Trie :=
  ds.foldl Trie.insertLabels Trie.empty

/-! ## The coordinator (blocklist.rs lines 30-159)

`update` is embedded as the ordered list of its atomic steps that act on
data shared with concurrent readers: each insertion into the private
trie, the compaction, the count store into the shared `AtomicUsize`, and
the exclusive swap of the shared `RwLock<Trie>` handle. `contains`
(lines 157-159) reads the handle once and delegates wholly to that trie,
so what a reader can observe at any instant is exactly the handle
component of a state along the step trace. -/

/-- A source as `update` sees it (line 49): a `file`-scheme URL whose
read yields the given content (`none` on open failure, lines 50-60), or
a remote URL with its world state. -/
inductive Source where
  | file (content : Option (List Char))
  | remote (env : RemoteEnv)

/-- Raw list content obtained for one source (lines 50-121). -/
def sourceContent (restore : Bool) : Source → Option (List Char)
  | .file c => c
  | .remote env => (resolveRemote env restore).content

/-- Domains contributed by one source (lines 122-138): a skipped source
(line 123) and a parse failure (lines 127-130) contribute nothing; a
parsed list contributes its entries. The external parser is a parameter
yielding the entries as label lists, `none` on a parse failure. -/
def sourceDomains (parse : List Char → Option (List (List String)))
    (restore : Bool) (s : Source) : List (List String) :=
  match sourceContent restore s with
  | none => []
  | some raw =>
    match parse raw with
    | none => []
    | some entries => entries

/-- All domains one `update` run inserts, in source order (lines
49-139). -/
def updateDomains (parse : List Char → Option (List (List String)))
    (restore : Bool) (sources : List Source) : List (List String) :=
  (sources.map (sourceDomains parse restore)).flatten

/-- One atomic step of `update` on data a concurrent task could observe:
one insertion into the private trie (line 133), the compaction (line
141), the count store (line 143), the exclusive swap of the shared
handle (lines 151-153). -/
inductive UpdateAction where
  | insertEntry (d : List String)
  | shrink
  | storeLen
  | swap

/-- The private trie of one `update` call (line 47) together with the
shared state: the published `blocklist_len` counter and the
`RwLock<Trie>` snapshot handle. -/
structure UpdateState where
  building : Trie
  count : Nat
  handle : Trie

/-- Effect of one atomic step. Only `swap` ever writes the shared
handle, and only `storeLen` the published counter. -/
def execAction : UpdateAction → UpdateState → UpdateState
  | .insertEntry d, s => ⟨s.building.insertLabels d, s.count, s.handle⟩
  | .shrink, s => ⟨s.building.shrinkToFit, s.count, s.handle⟩
  | .storeLen, s => ⟨s.building, s.building.len, s.handle⟩
  | .swap, s => ⟨s.building, s.count, s.building⟩

/-- The atomic steps of one `update` call in program order: all
insertions (lines 49-139), then `shrink_to_fit` (line 141), then the
count store (line 143), then the swap (lines 151-153) — the count is
stored before the swap. -/
def updateActions (parse : List Char → Option (List (List String)))
    (restore : Bool) (sources : List Source) : List UpdateAction :=
  (updateDomains parse restore sources).map UpdateAction.insertEntry
    ++ [.shrink, .storeLen, .swap]

/-- Runs a list of steps from a state. -/
def runActions (acts : List UpdateAction) (s : UpdateState) : UpdateState :=
  acts.foldl (fun st a => execAction a st) s

/-- Every state along a run, the initial one included: the instants at
which a concurrent reader could observe the shared data. -/
def statesOf : List UpdateAction → UpdateState → List UpdateState
  | [], s => [s]
  | a :: rest, s => s :: statesOf rest (execAction a s)

/-! ## Trie lemmas -/

theorem findChild_setChild_self (l : String) (t : Trie)
    (cs : List (String × Trie)) :
    findChild l (setChild l t cs) = some t := by
  induction cs with
  | nil => simp [setChild, findChild]
  | cons kc rest ih =>
    obtain ⟨k, c⟩ := kc
    by_cases h : k = l <;> simp [setChild, findChild, h, ih]

theorem findChild_setChild_ne (l k : String) (t : Trie)
    (cs : List (String × Trie)) (h : k ≠ l) :
    findChild k (setChild l t cs) = findChild k cs := by
  induction cs with
  | nil => simp [setChild, findChild, Ne.symm h]
  | cons kc rest ih =>
    obtain ⟨k', c⟩ := kc
    by_cases h2 : k' = l
    · subst h2
      simp [setChild, findChild, Ne.symm h]
    · simp [setChild, findChild, h2, ih]

theorem memB_empty (q : List String) : Trie.empty.memB q = false := by
  cases q <;> simp [Trie.empty, Trie.memB, findChild]

theorem memB_insertLabels (d : List String) : ∀ (t : Trie) (q : List String),
    (t.insertLabels d).memB q = (decide (q = d) || t.memB q) := by
  induction d with
  | nil =>
    intro t q
    obtain ⟨term, cs⟩ := t
    cases q with
    | nil => simp [Trie.insertLabels, Trie.memB]
    | cons k q' => simp [Trie.insertLabels, Trie.memB]
  | cons l d' ih =>
    intro t q
    obtain ⟨term, cs⟩ := t
    cases q with
    | nil => simp [Trie.insertLabels, Trie.memB]
    | cons k q' =>
      by_cases hk : k = l
      · subst hk
        simp only [Trie.insertLabels, Trie.memB, findChild_setChild_self]
        rw [ih]
        cases hfc : findChild k cs with
        | none => simp [hfc, memB_empty]
        | some c => simp [hfc]
      · simp only [Trie.insertLabels, Trie.memB]
        rw [findChild_setChild_ne _ _ _ _ hk]
        simp [hk]

theorem memB_foldl (ds : List (List String)) : ∀ (t : Trie) (q : List String),
    (ds.foldl Trie.insertLabels t).memB q = (t.memB q || decide (q ∈ ds)) := by
  induction ds with
  | nil => intro t q; simp
  | cons d ds ih =>
    intro t q
    simp only [List.foldl_cons, ih, memB_insertLabels]
    cases t.memB q <;> by_cases h : q = d <;> by_cases h2 : q ∈ ds <;>
      simp_all

theorem memB_buildTrie (ds : List (List String)) (q : List String) :
    (buildTrie ds).memB q = decide (q ∈ ds) := by
  simp [buildTrie, memB_foldl, memB_empty]

theorem containsLabels_iff (q : List String) : ∀ (t : Trie) (incl : Bool),
    t.containsLabels q incl = true ↔
      t.memB q = true ∨
        (incl = true ∧ ∃ p, p <+: q ∧ p ≠ q ∧ t.memB p = true) := by
  induction q with
  | nil =>
    intro t incl
    obtain ⟨term, cs⟩ := t
    simp only [Trie.containsLabels, Trie.memB]
    constructor
    · exact Or.inl
    · rintro (h | ⟨-, p, hp, hne, -⟩)
      · exact h
      · exact absurd (List.prefix_nil.mp hp) hne
  | cons l ls ih =>
    intro t incl
    obtain ⟨term, cs⟩ := t
    simp only [Trie.containsLabels]
    by_cases hit : (incl && term) = true
    · obtain ⟨hincl, hterm⟩ := Bool.and_eq_true_iff.mp hit
      simp only [hit, if_true, true_iff]
      refine Or.inr ⟨hincl, [], List.nil_prefix, ?_, hterm⟩
      simp
    · simp only [hit, if_false, Bool.not_eq_true]
      cases hfc : findChild l cs with
      | none =>
        simp only [Trie.memB, hfc]
        constructor
        · intro h; exact absurd h (by simp)
        · rintro (h | ⟨hincl, p, hp, hne, hmem⟩)
          · exact absurd h (by simp)
          · cases p with
            | nil =>
              simp only [Trie.memB] at hmem
              exact absurd (by rw [hincl, hmem]; rfl) hit
            | cons x p' =>
              obtain ⟨hx, -⟩ := List.cons_prefix_cons.mp hp
              subst hx
              simp [Trie.memB, hfc] at hmem
      | some c =>
        simp only [Bool.false_eq_true, if_false]
        show c.containsLabels ls incl = true ↔ _
        rw [ih c incl]
        simp only [Trie.memB, hfc]
        constructor
        · rintro (h | ⟨hincl, p', hp', hne', hmem'⟩)
          · exact Or.inl h
          · refine Or.inr ⟨hincl, l :: p', ?_, ?_, ?_⟩
            · exact List.cons_prefix_cons.mpr ⟨rfl, hp'⟩
            · simp [hne']
            · simpa [Trie.memB, hfc] using hmem'
        · rintro (h | ⟨hincl, p, hp, hne, hmem⟩)
          · exact Or.inl h
          · cases p with
            | nil =>
              simp only [Trie.memB] at hmem
              exact absurd (by rw [hincl, hmem]; rfl) hit
            | cons x p' =>
              obtain ⟨hx, hp'⟩ := List.cons_prefix_cons.mp hp
              subst hx
              refine Or.inr ⟨hincl, p', hp', ?_, ?_⟩
              · intro hcon; exact hne (by rw [hcon])
              · simpa [Trie.memB, hfc] using hmem

theorem sumLen_setChild_some (l : String) (t c : Trie) :
    ∀ (cs : List (String × Trie)), findChild l cs = some c →
      Trie.len.sumLen (setChild l t cs) + c.len
        = Trie.len.sumLen cs + t.len := by
  intro cs
  induction cs with
  | nil => intro h; simp [findChild] at h
  | cons kc rest ih =>
    obtain ⟨k, c'⟩ := kc
    intro h
    by_cases hk : k = l
    · subst hk
      rw [findChild, if_pos rfl] at h
      cases h
      simp only [setChild, if_pos rfl, Trie.len.sumLen]
      omega
    · rw [findChild, if_neg hk] at h
      simp only [setChild, if_neg hk, Trie.len.sumLen]
      have := ih h
      omega

theorem sumLen_setChild_none (l : String) (t : Trie) :
    ∀ (cs : List (String × Trie)), findChild l cs = none →
      Trie.len.sumLen (setChild l t cs) = Trie.len.sumLen cs + t.len := by
  intro cs
  induction cs with
  | nil => intro _; simp [setChild, Trie.len.sumLen]
  | cons kc rest ih =>
    obtain ⟨k, c'⟩ := kc
    intro h
    by_cases hk : k = l
    · subst hk
      rw [findChild, if_pos rfl] at h
      cases h
    · rw [findChild, if_neg hk] at h
      simp only [setChild, if_neg hk, Trie.len.sumLen]
      rw [ih h]
      omega

theorem len_insertLabels (d : List String) : ∀ (t : Trie),
    (t.insertLabels d).len = t.len + (if t.memB d then 0 else 1) := by
  induction d with
  | nil =>
    intro t
    obtain ⟨term, cs⟩ := t
    cases term <;> simp [Trie.insertLabels, Trie.len, Trie.memB] <;> omega
  | cons l d' ih =>
    intro t
    obtain ⟨term, cs⟩ := t
    cases hfc : findChild l cs with
    | some c =>
      have h1 := sumLen_setChild_some l (c.insertLabels d') c cs hfc
      have h2 := ih c
      simp only [Trie.insertLabels, hfc, Option.getD_some, Trie.len,
        Trie.memB]
      cases term <;> cases hm : c.memB d' <;> simp [hm] at h2 ⊢ <;> omega
    | none =>
      have h1 := sumLen_setChild_none l (Trie.empty.insertLabels d') cs hfc
      have h2 := ih Trie.empty
      have h0 : Trie.empty.len = 0 := rfl
      rw [memB_empty] at h2
      simp only [Trie.insertLabels, hfc, Option.getD_none, Trie.len,
        Trie.memB]
      cases term <;> simp at h2 ⊢ <;> omega

theorem countP_point {α : Type} [DecidableEq α] (d : α) (p : α → Bool) :
    ∀ (l : List α), l.Nodup → d ∈ l →
      l.countP p
        = l.countP (fun q => p q && !(decide (q = d)))
          + (if p d then 1 else 0) := by
  intro l
  induction l with
  | nil => intro _ h; simp at h
  | cons a rest ih =>
    intro hnd hd
    rw [List.nodup_cons] at hnd
    rcases List.mem_cons.mp hd with he | h
    · subst he
      have hrest : rest.countP (fun q => p q && !(decide (q = d)))
          = rest.countP p := by
        apply List.countP_congr
        intro x hx
        have hxd : x ≠ d := fun he2 => hnd.1 (he2 ▸ hx)
        simp [hxd]
      rw [List.countP_cons, List.countP_cons, hrest]
      cases hp : p d <;> simp [hp]
    · have had : a ≠ d := fun he2 => hnd.1 (he2 ▸ h)
      rw [List.countP_cons, List.countP_cons, ih hnd.2 h]
      cases hp : p a <;> cases hpd : p d <;> simp [hp, hpd, had] <;> omega

theorem len_foldl (ds : List (List String)) : ∀ (t : Trie),
    (ds.foldl Trie.insertLabels t).len
      = t.len + ds.dedup.countP (fun d => !(t.memB d)) := by
  induction ds with
  | nil => intro t; simp
  | cons d ds ih =>
    intro t
    rw [List.foldl_cons, ih, len_insertLabels]
    have hpred : ds.dedup.countP (fun q => !((t.insertLabels d).memB q))
        = ds.dedup.countP (fun q => (!(t.memB q)) && !(decide (q = d))) := by
      apply List.countP_congr
      intro x hx
      rw [memB_insertLabels]
      cases hqd : decide (x = d) <;> cases hm : t.memB x <;>
        simp_all
    by_cases hd : d ∈ ds
    · rw [List.dedup_cons_of_mem hd, hpred]
      have hdd : d ∈ ds.dedup := List.mem_dedup.mpr hd
      have hpoint := countP_point d (fun q => !(t.memB q)) ds.dedup
        (List.nodup_dedup ds) hdd
      cases hm : t.memB d <;> simp [hm] at hpoint ⊢ <;> omega
    · have hdd : d ∉ ds.dedup := fun h => hd (List.mem_dedup.mp h)
      rw [List.dedup_cons_of_not_mem hd, List.countP_cons, hpred]
      have heq : ds.dedup.countP (fun q => (!(t.memB q)) && !(decide (q = d)))
          = ds.dedup.countP (fun q => !(t.memB q)) := by
        apply List.countP_congr
        intro x hx
        have hxd : x ≠ d := fun he => hdd (he ▸ hx)
        simp [hxd]
      rw [heq]
      cases hm : t.memB d <;> simp [hm] <;> omega

/-- Length of the trie built from a list of domains: the number of
distinct domains inserted (duplicates collapse). -/
theorem len_buildTrie (ds : List (List String)) :
    (buildTrie ds).len = ds.dedup.length := by
  rw [buildTrie, len_foldl]
  have h0 : Trie.empty.len = 0 := rfl
  have heq : ds.dedup.countP (fun d => !(Trie.empty.memB d))
      = ds.dedup.countP (fun _ => true) := by
    apply List.countP_congr
    intro x hx
    simp [memB_empty]
  rw [h0, heq]
  simp [List.countP_true]

/-- C4: a query matches the trie built from the inserted domains exactly
when its full label sequence was inserted (regardless of the
`includeSubdomains` flag), or `includeSubdomains` is set and some
inserted domain is a strict ancestor of the query, that is, a proper
prefix of its most-significant-first label sequence; in every other case
the query does not match. -/
theorem contains_iff_inserted (ds : List (List String)) (q : List String)
    (incl : Bool) :
    (buildTrie ds).containsLabels q incl = true ↔
      q ∈ ds ∨ (incl = true ∧ ∃ d ∈ ds, d ≠ q ∧ d <+: q) := by
  rw [containsLabels_iff]
  simp only [memB_buildTrie, decide_eq_true_eq]
  constructor
  · rintro (h | ⟨hincl, p, hp, hne, hmem⟩)
    · exact Or.inl h
    · exact Or.inr ⟨hincl, p, hmem, hne, hp⟩
  · rintro (h | ⟨hincl, d, hd, hne, hp⟩)
    · exact Or.inl h
    · exact Or.inr ⟨hincl, d, hp, hne, hd⟩

/-! ## Theorems on cache naming and the resolver -/

/-- C10: the cache-name derivation is total for every path. When the
replaced path is empty, no character is removed (the removal at line 64
is guarded by the emptiness check at line 63, so no out-of-bounds access
occurs) and the name is empty or exactly `--` followed by the query;
when it is non-empty, the first character is removed whether or not it
is a dash. -/
theorem cacheName_no_panic (path : List Char) (query : Option (List Char)) :
    (replaceSlash path = [] → cacheName path query
        = (match query with
           | some q => '-' :: '-' :: q
           | none => [])) ∧
    (∀ c cs, replaceSlash path = c :: cs → cacheName path query
        = cs ++ (match query with
           | some q => '-' :: '-' :: q
           | none => [])) := by
  constructor
  · intro h
    cases query <;> simp [cacheName, h, removeFirst]
  · intro c cs h
    cases query <;> simp [cacheName, h, removeFirst]

/-- Counterexample to C2 as stated: on a path with no leading slash (as a
non-special-scheme URL such as `mailto:xyz` has), the code removes the
first character even though it is not a dash, while the claimed rule
keeps it. -/
theorem cacheName_strip_counterexample :
    cacheName ['x', 'y', 'z'] none ≠ cacheNameClaimed ['x', 'y', 'z'] none := by
  decide

/-- C2 (amended): the cache file name is the path with every `/` replaced
by `-`, then its first character removed whenever the result is
non-empty (not only when it is a dash), then `--` plus the raw query
appended when a query is present; the file sits directly under the
configured cache directory. Whenever the replaced path does begin with a
dash — which holds for every URL whose path begins with `/`, hence for
all http/https sources — this agrees with the rule as originally
claimed. -/
theorem cacheName_rule (listDir path : List Char) (query : Option (List Char)) :
    cachePath listDir path query = listDir ++ '/' :: cacheName path query ∧
    cacheName path query
      = removeFirst (replaceSlash path)
        ++ (match query with
            | some q => '-' :: '-' :: q
            | none => []) ∧
    (∀ rest, replaceSlash path = '-' :: rest →
      cacheName path query = cacheNameClaimed path query) := by
  refine ⟨rfl, ?_, ?_⟩
  · cases query <;> simp [cacheName]
  · intro rest h
    cases query <;> simp [cacheName, cacheNameClaimed, h, removeFirst]

/-- C5: when restore-from-cache is requested and the cache file exists
(and is readable), no network request is made, the content used is
exactly the cache file's content, and the content equals what a
network-backed run whose fetch returns that same content would use. -/
theorem restore_from_cache_skips_network (env : RemoteEnv) (c : List Char)
    (hc : env.cache = some c) (hr : env.readOk = true) :
    (resolveRemote env true).fetched = false ∧
    (resolveRemote env true).content = some c ∧
    (∀ parse, sourceDomains parse true (Source.remote env)
      = sourceDomains parse false (Source.remote ⟨none, some c, true, true⟩)) := by
  obtain ⟨cache, fetch, w, r⟩ := env
  cases hc
  cases hr
  refine ⟨by simp [resolveRemote], by simp [resolveRemote], fun parse => ?_⟩
  simp [sourceDomains, sourceContent, resolveRemote]

theorem restore_from_cache_skips_network_witness :
    (resolveRemote ⟨some ['a'], none, true, true⟩ true).fetched = false ∧
    (resolveRemote ⟨some ['a'], none, true, true⟩ true).content = some ['a'] ∧
    (∀ parse, sourceDomains parse true (Source.remote ⟨some ['a'], none, true, true⟩)
      = sourceDomains parse false (Source.remote ⟨none, some ['a'], true, true⟩)) :=
  restore_from_cache_skips_network ⟨some ['a'], none, true, true⟩ ['a'] rfl rfl

/-- C6: when the network fetch fails (and a fetch was actually made), the
resolver returns the cache file's content when the file exists and is
readable, and no content when it does not exist; `resolveRemote` is a
total function, so the failure never escapes the resolver. -/
theorem fetch_failure_falls_back (env : RemoteEnv) (restore : Bool)
    (hf : env.fetch = none) (hr : env.readOk = true)
    (ha : (resolveRemote env restore).fetched = true) :
    (resolveRemote env restore).content = env.cache := by
  obtain ⟨cache, fetch, w, r⟩ := env
  cases hf
  cases hr
  cases cache <;> cases restore <;> simp_all [resolveRemote]

theorem fetch_failure_falls_back_witness :
    (resolveRemote ⟨some ['a'], none, true, true⟩ false).content
      = (⟨some ['a'], none, true, true⟩ : RemoteEnv).cache :=
  fetch_failure_falls_back ⟨some ['a'], none, true, true⟩ false rfl rfl rfl

/-- C7: the cache file changes only when the fetch fully succeeded (and
the write succeeded), and then it holds exactly the fetched body;
contrapositively a failed fetch leaves any existing cache file
byte-for-byte unchanged and never deletes it. -/
theorem cache_changed_only_on_success (env : RemoteEnv) (restore : Bool)
    (h : (resolveRemote env restore).cache ≠ env.cache) :
    ∃ body, env.fetch = some body ∧ env.writeOk = true ∧
      (resolveRemote env restore).cache = some body ∧
      (resolveRemote env restore).fetched = true := by
  obtain ⟨cache, fetch, w, r⟩ := env
  cases fetch <;> cases cache <;> cases restore <;> cases w <;>
    simp_all [resolveRemote]

theorem cache_changed_only_on_success_witness :
    ∃ body, (⟨none, some ['b'], true, true⟩ : RemoteEnv).fetch = some body ∧
      (⟨none, some ['b'], true, true⟩ : RemoteEnv).writeOk = true ∧
      (resolveRemote ⟨none, some ['b'], true, true⟩ false).cache = some body ∧
      (resolveRemote ⟨none, some ['b'], true, true⟩ false).fetched = true :=
  cache_changed_only_on_success ⟨none, some ['b'], true, true⟩ false (by decide)

/-- C8: when the fetch succeeds but persisting the body to the cache file
fails, the fetched body is still the content used for the source and the
cache file is left as it was — the persist failure does not change the
fetch outcome. -/
theorem persist_failure_keeps_body (env : RemoteEnv) (restore : Bool)
    (body : List Char)
    (hf : env.fetch = some body) (hw : env.writeOk = false)
    (ha : (resolveRemote env restore).fetched = true) :
    (resolveRemote env restore).content = some body ∧
    (resolveRemote env restore).cache = env.cache := by
  obtain ⟨cache, fetch, w, r⟩ := env
  cases hf
  cases hw
  cases cache <;> cases restore <;> simp_all [resolveRemote]

theorem persist_failure_keeps_body_witness :
    (resolveRemote ⟨some ['c'], some ['d'], false, true⟩ false).content
        = some ['d'] ∧
    (resolveRemote ⟨some ['c'], some ['d'], false, true⟩ false).cache
      = (⟨some ['c'], some ['d'], false, true⟩ : RemoteEnv).cache :=
  persist_failure_keeps_body ⟨some ['c'], some ['d'], false, true⟩ false ['d']
    rfl rfl rfl

/-! ## Coordinator theorems -/

theorem runActions_append (xs ys : List UpdateAction) (s : UpdateState) :
    runActions (xs ++ ys) s = runActions ys (runActions xs s) := by
  simp [runActions, List.foldl_append]

theorem runActions_insert (ds : List (List String)) : ∀ (s : UpdateState),
    runActions (ds.map UpdateAction.insertEntry) s
      = ⟨ds.foldl Trie.insertLabels s.building, s.count, s.handle⟩ := by
  induction ds with
  | nil => intro s; cases s; rfl
  | cons d ds ih =>
    intro s
    cases s
    simp only [List.map_cons, runActions, List.foldl_cons]
    exact ih _

/-- Final state of one `update` call: the private trie holds every
parsed domain, the counter its length, and the handle was swapped to
it. -/
theorem runActions_update (parse : List Char → Option (List (List String)))
    (restore : Bool) (sources : List Source) (c0 : Nat) (old : Trie) :
    runActions (updateActions parse restore sources) ⟨Trie.empty, c0, old⟩
      = ⟨buildTrie (updateDomains parse restore sources),
         (buildTrie (updateDomains parse restore sources)).len,
         buildTrie (updateDomains parse restore sources)⟩ := by
  rw [updateActions, runActions_append, runActions_insert]
  rfl

theorem statesOf_insert_handles (ds : List (List String)) :
    ∀ (s : UpdateState) (rest : List UpdateAction),
    (statesOf (ds.map UpdateAction.insertEntry ++ rest) s).map UpdateState.handle
      = List.replicate ds.length s.handle
        ++ (statesOf rest
              (runActions (ds.map UpdateAction.insertEntry) s)).map
            UpdateState.handle := by
  induction ds with
  | nil => intro s rest; simp [runActions]
  | cons d ds ih =>
    intro s rest
    have hstep : statesOf (List.map UpdateAction.insertEntry (d :: ds) ++ rest) s
        = s :: statesOf (List.map UpdateAction.insertEntry ds ++ rest)
            (execAction (UpdateAction.insertEntry d) s) := rfl
    rw [hstep, List.map_cons, List.map_cons, ih]
    have hh : (execAction (UpdateAction.insertEntry d) s).handle = s.handle := rfl
    have hr : runActions
          (UpdateAction.insertEntry d :: List.map UpdateAction.insertEntry ds) s
        = runActions (List.map UpdateAction.insertEntry ds)
            (execAction (UpdateAction.insertEntry d) s) := rfl
    rw [hh, hr, List.length_cons, List.replicate_succ, List.cons_append]

/-- C3: snapshot consistency. Along the whole step trace of one `update`
call, the shared handle — the only thing a `contains` call reads — is
the previous snapshot at every instant up to and including the count
store, and becomes the fully built, compacted replacement trie at
exactly one instant, the final exclusive swap; no state ever exposes a
partially inserted trie, so any reader observes either the old or the
complete new snapshot, never a mixture. -/
theorem update_single_swap (parse : List Char → Option (List (List String)))
    (restore : Bool) (sources : List Source) (c0 : Nat) (old : Trie) :
    (statesOf (updateActions parse restore sources)
        ⟨Trie.empty, c0, old⟩).map UpdateState.handle
      = List.replicate ((updateDomains parse restore sources).length + 3) old
        ++ [buildTrie (updateDomains parse restore sources)] := by
  rw [updateActions, statesOf_insert_handles, runActions_insert]
  rw [List.replicate_add, List.append_assoc]
  rfl

/-- Counterexample to C1 as stated: in a run over one source that
contributes the single domain `com`, the step trace of `update` contains
a state — the instant after the count store of line 143 and before the
swap of line 152 — whose published count (1) differs from the domain
count of the snapshot current at that instant (0). -/
theorem published_count_counterexample :
    ∃ st ∈ statesOf
        (updateActions (fun _ => some [["com"]]) false [Source.file (some ['x'])])
        ⟨Trie.empty, 0, Trie.empty⟩,
      st.count ≠ st.handle.len := by
  decide

/-- C1 (amended): the published count is stored immediately before — not
atomically with or after — the snapshot swap, and what is stored is the
incoming snapshot's distinct-domain count; hence in the window between
the store and the swap the counter reflects the incoming snapshot, while
from the swap on (in particular once `update` returns) it equals the
number of distinct domains in the current snapshot. -/
theorem published_count_after_swap (parse : List Char → Option (List (List String)))
    (restore : Bool) (sources : List Source) (c0 : Nat) (old : Trie) :
    (runActions (updateActions parse restore sources)
        ⟨Trie.empty, c0, old⟩).count
      = (runActions (updateActions parse restore sources)
          ⟨Trie.empty, c0, old⟩).handle.len ∧
    (runActions (updateActions parse restore sources)
        ⟨Trie.empty, c0, old⟩).count
      = (updateDomains parse restore sources).dedup.length ∧
    updateActions parse restore sources
      = (updateDomains parse restore sources).map UpdateAction.insertEntry
        ++ [UpdateAction.shrink, UpdateAction.storeLen, UpdateAction.swap] := by
  rw [runActions_update]
  exact ⟨rfl, len_buildTrie _, rfl⟩

/-- C9: failure isolation. A source that contributes nothing — open
failure, download failure, cache-read failure or parse failure all make
`sourceDomains` empty — leaves the whole run's outcome exactly as if the
source were absent, the remaining sources still being processed in
order; and when every source fails, the run still stores count 0 and
still swaps in a (now empty) snapshot. `runActions` is a total function:
`update` has no failure return. -/
theorem update_failure_isolated (parse : List Char → Option (List (List String)))
    (restore : Bool) (xs ys : List Source) (bad : Source) (c0 : Nat) (old : Trie)
    (hbad : sourceDomains parse restore bad = []) :
    runActions (updateActions parse restore (xs ++ bad :: ys))
        ⟨Trie.empty, c0, old⟩
      = runActions (updateActions parse restore (xs ++ ys))
          ⟨Trie.empty, c0, old⟩ ∧
    ((∀ src ∈ xs ++ ys, sourceDomains parse restore src = []) →
      (runActions (updateActions parse restore (xs ++ bad :: ys))
          ⟨Trie.empty, c0, old⟩).count = 0 ∧
      (runActions (updateActions parse restore (xs ++ bad :: ys))
          ⟨Trie.empty, c0, old⟩).handle = Trie.empty) := by
  have hdom : updateDomains parse restore (xs ++ bad :: ys)
      = updateDomains parse restore (xs ++ ys) := by
    simp [updateDomains, hbad]
  constructor
  · rw [runActions_update, runActions_update, hdom]
  · intro hall
    have hnil : updateDomains parse restore (xs ++ ys) = [] := by
      rw [updateDomains, List.flatten_eq_nil_iff]
      intro x hx
      obtain ⟨src, hsrc, rfl⟩ := List.mem_map.mp hx
      exact hall src hsrc
    rw [runActions_update, hdom, hnil]
    exact ⟨rfl, rfl⟩

theorem update_failure_isolated_witness :
    runActions (updateActions (fun _ => none) false [Source.file none])
        ⟨Trie.empty, 0, Trie.empty⟩
      = runActions (updateActions (fun _ => none) false [])
          ⟨Trie.empty, 0, Trie.empty⟩ ∧
    ((∀ src ∈ ([] ++ ([] : List Source)),
        sourceDomains (fun _ => none) false src = []) →
      (runActions (updateActions (fun _ => none) false [Source.file none])
          ⟨Trie.empty, 0, Trie.empty⟩).count = 0 ∧
      (runActions (updateActions (fun _ => none) false [Source.file none])
          ⟨Trie.empty, 0, Trie.empty⟩).handle = Trie.empty) :=
  update_failure_isolated (fun _ => none) false [] [] (Source.file none) 0
    Trie.empty rfl

end CrabHole
